import Mathlib

/-!
Shallow embedding of the numeric pipeline of `waveform3d.py` (class `Waveform3d`).

Sequences of samples are modelled as `List ℚ`; numpy 2-D arrays as `List (List ℚ)`.
Python's built-in `max`/`min` over a non-empty list are modelled by `listMax`/`listMin`
(left fold of `max`/`min` over the tail, seeded with the head; the value on the empty
list is irrelevant and set to `0`).  In-place mutation (numpy broadcast assignment and
`input_list[i] *= factor`) is modelled by explicit state passing: the mutated buffer is
threaded through a fold, so the value of a definition is simultaneously the function's
return value and the final content of the mutated buffer.
-/

/-- Python `max(l)` for a non-empty list `l`; `0` on `[]` (never used there). -/
def listMax : List ℚ → ℚ
  | [] => 0
  | x :: xs => xs.foldl max x

/-- Python `min(l)` for a non-empty list `l`; `0` on `[]` (never used there). -/
def listMin : List ℚ → ℚ
  | [] => 0
  | x :: xs => xs.foldl min x

/-- `self.scale_factor = 0.5`, set in `Waveform3d.__init__`. -/
def scale_factor : ℚ := 1/2

/-- Embedding of `Waveform3d._process_loudness_list`: shift by `min(...) * -1`
(numpy broadcast `+=`), then map `ll ↦ ll**2 / (scale_factor * l_max)` where
`l_max` is the maximum of the shifted list. -/
def _process_loudness_list (loudness_list : List ℚ) : List ℚ :=
  let shifted := loudness_list.map (fun x => x + listMin loudness_list * (-1))
  let l_max := listMax shifted
  shifted.map (fun ll => ll ^ 2 / (scale_factor * l_max))

/-- Embedding of `np.convolve(a, v, 'valid')` on rational sequences.  numpy swaps
the arguments so that the longer sequence comes first, and returns the
`max(M,N) - min(M,N) + 1` full-overlap entries of the convolution:
`out[k] = ∑_{j < Ns} short[j] * long[k + Ns - 1 - j]`. -/
def convolveValid (a v : List ℚ) : List ℚ :=
  let long := if v.length ≤ a.length then a else v
  let short := if v.length ≤ a.length then v else a
  (List.range (long.length - short.length + 1)).map (fun k =>
    ∑ j ∈ Finset.range short.length,
      short.getD j 0 * long.getD (k + (short.length - 1) - j) 0)

/-- Embedding of `Waveform3d._movingaverage`: convolve the values with
`np.repeat(1.0, window)/window` in `'valid'` mode. -/
def _movingaverage (values : List ℚ) (window : ℕ) : List ℚ :=
  let weigths := List.replicate window ((1 : ℚ) / window)
  convolveValid values weigths

/-- Embedding of `Waveform3d._rescale_list`.  The Python code computes
`rescale_factor = (b - a) / float(max(input_list))` and then mutates the caller's
list in place (`input_list[i] *= rescale_factor` for each index) and returns that
same list.  The in-place loop is modelled by folding `List.set` over the indices;
the result is both the returned list and the buffer content after the call. -/
def _rescale_list (input_list : List ℚ) (a b : ℚ) : List ℚ :=
  let rescale_factor := (b - a) / listMax input_list
  (List.range input_list.length).foldl
    (fun buf i => buf.set i (buf.getD i 0 * rescale_factor)) input_list

/-- Loop body of `Waveform3d.make_waveform_square`: the state is the pair
(result list so far, currently stored value `stored_wf_val`). -/
def squareStep (waveform : List ℚ) (n_bars_to_merge : ℕ)
    (acc : List ℚ × ℚ) (i : ℕ) : List ℚ × ℚ :=
  let curr_wf_val := waveform.getD i 0
  let stored_wf_val := if i % n_bars_to_merge = 0 then curr_wf_val else acc.2
  (acc.1 ++ [stored_wf_val], stored_wf_val)

/-- Embedding of `Waveform3d.make_waveform_square`: `None` on an empty input,
otherwise fold the loop body over `i ∈ range(1, len(waveform))` starting from
the empty result list and `stored_wf_val = waveform[0]`. -/
def make_waveform_square (waveform : List ℚ) (n_bars_to_merge : ℕ) : Option (List ℚ) :=
  if 0 < waveform.length then
    some ((List.range' 1 (waveform.length - 1)).foldl
      (squareStep waveform n_bars_to_merge) (([] : List ℚ), waveform.getD 0 0)).1
  else
    none

/-- Entry `(r, c)` of a matrix represented as a list of rows (`0` out of range,
matching a read of an untouched `np.zeros` cell). -/
def matGet (M : List (List ℚ)) (r c : ℕ) : ℚ :=
  (M.getD r []).getD c 0

/-- In-place assignment `M[r][c] = v` on a list-of-rows matrix. -/
def matSet (M : List (List ℚ)) (r c : ℕ) (v : ℚ) : List (List ℚ) :=
  M.set r ((M.getD r []).set c v)

/-- Inner loop body of `Waveform3d.make_waveform_3d` for row index `i` and column
index `j`: write `1` to cells `(m-i, j)` and `(m+i, j)` when
`i < waveform[j] + min_loudness_value`, else write `0` to both. -/
def fillStep (waveform : List ℚ) (min_loudness_value : ℚ) (m i : ℕ)
    (M : List (List ℚ)) (j : ℕ) : List (List ℚ) :=
  let curr_l_value := waveform.getD j 0 + min_loudness_value
  if (i : ℚ) < curr_l_value then
    matSet (matSet M (m - i) j 1) (m + i) j 1
  else
    matSet (matSet M (m - i) j 0) (m + i) j 0

/-- Embedding of `Waveform3d.make_waveform_3d`: `m = int(ceil(max(waveform)))`,
allocate `np.zeros(shape=(2*m, n))`, run the double loop over `i ∈ range(m)`,
`j ∈ range(n)` with `min_loudness_value = max(waveform) / 10.0`, then scale every
entry by `height` (`waveform_3d *= height`). -/
def make_waveform_3d (waveform : List ℚ) (height : ℚ) : List (List ℚ) :=
  let n := waveform.length
  let m := (Int.ceil (listMax waveform)).toNat
  let min_loudness_value := listMax waveform / 10
  let filled := (List.range m).foldl
    (fun M i => (List.range n).foldl (fillStep waveform min_loudness_value m i) M)
    (List.replicate (2 * m) (List.replicate n (0 : ℚ)))
  filled.map (fun row => row.map (fun x => x * height))

/-- Embedding of the stride computation in `Waveform3d.local_audio_3d`
(`mode == "waveform"`): for `len > 1000`, `m = len(str(len))` decimal digits and
the factor is `10 ** (m-1-3) * int(str(len)[0])` (leading digit); else `1`.
`len(str(u))` is `(Nat.digits 10 u).length` and `int(str(u)[0])` is the most
significant digit, i.e. the last entry of `Nat.digits 10 u`. -/
def downsample_factor (u : ℕ) : ℕ :=
  if 1000 < u then
    let m := (Nat.digits 10 u).length
    10 ^ (m - 1 - 3) * (Nat.digits 10 u).getLastD 0
  else
    1

/-- Embedding of the list comprehension in `Waveform3d.local_audio_3d`:
`[waveform[i] for i in range(len(waveform)) if waveform[i]>0 and i%downsample_factor==0]`. -/
def half_waveform (waveform : List ℚ) : List ℚ :=
  let d := downsample_factor waveform.length
  ((List.range waveform.length).filter
      (fun i => decide (0 < waveform.getD i 0) && decide (i % d = 0))).map
    (fun i => waveform.getD i 0)

/-- Specification-side description of the downsampling step, following the spec's
words: walking the sequence with its original indices, keep exactly those elements
whose index is a multiple of the stride `d` and whose value is strictly positive,
in order. -/
def halfWaveformSpec (d : ℕ) : ℕ → List ℚ → List ℚ
  | _, [] => []
  | i, x :: xs =>
    if i % d = 0 ∧ 0 < x then x :: halfWaveformSpec d (i + 1) xs
    else halfWaveformSpec d (i + 1) xs

/-- Row index `r` of the `(2m, n)` matrix written back to the loop index `i` that
wrote it: rows `m - i` (for `r ≤ m`) and `m + i` (for `r > m`) of
`make_waveform_3d` are written with `i = rowIdx m r`. -/
def rowIdx (m r : ℕ) : ℕ :=
  if r ≤ m then m - r else r - m

/-! ### Generic list helpers -/

theorem getD_eq_get {α : Type} (l : List α) (d : α) (i : ℕ) (h : i < l.length) :
    l.getD i d = l[i] := by
  simp [List.getD_eq_getElem?_getD, List.getElem?_eq_getElem h]

theorem map_getD_range (l : List ℚ) :
    (List.range l.length).map (fun i => l.getD i 0) = l := by
  apply List.ext_getElem
  · simp
  · intro i h1 h2
    simp only [List.getElem_map, List.getElem_range]
    exact getD_eq_get l 0 i h2

/-! ### Bar Quantizer (`make_waveform_square`) -/

theorem squareStep_foldl_length (wf : List ℚ) (n : ℕ) :
    ∀ (is : List ℕ) (acc : List ℚ) (s : ℚ),
      ((is.foldl (squareStep wf n) (acc, s)).1).length = acc.length + is.length := by
  intro is
  induction is with
  | nil => intro acc s; simp
  | cons i is ih =>
    intro acc s
    simp only [List.foldl_cons, squareStep, ih, List.length_append]
    simp
    omega

theorem squareStep_foldl_one (wf : List ℚ) :
    ∀ (is : List ℕ) (acc : List ℚ) (s : ℚ),
      (is.foldl (squareStep wf 1) (acc, s)).1 = acc ++ is.map (fun i => wf.getD i 0) := by
  intro is
  induction is with
  | nil => intro acc s; simp
  | cons i is ih =>
    intro acc s
    simp only [List.foldl_cons, squareStep, Nat.mod_one, ih, List.map_cons,
      List.append_assoc, List.singleton_append]
    simp

theorem map_getD_range'_one (wf : List ℚ) :
    (List.range' 1 (wf.length - 1)).map (fun i => wf.getD i 0) = wf.drop 1 := by
  cases wf with
  | nil => simp
  | cons x t =>
    simp only [List.length_cons, Nat.add_sub_cancel, List.drop_succ_cons, List.drop_zero]
    rw [List.range'_eq_map_range, List.map_map]
    have : ∀ i ∈ List.range t.length,
        ((fun i => (x :: t).getD i 0) ∘ (1 + ·)) i = t.getD i 0 := by
      intro i _
      simp [Nat.add_comm 1 i]
    rw [List.map_congr_left this, map_getD_range]

/-- C1 (amended): for every non-empty profile and merge count `N ≥ 1`,
`make_waveform_square` returns a profile whose length is the input length
minus one (the loop runs over `range(1, len(waveform))`). -/
theorem make_waveform_square_length (wf : List ℚ) (n : ℕ) (h0 : wf ≠ []) (h1 : 1 ≤ n) :
    ∃ r, make_waveform_square wf n = some r ∧ r.length = wf.length - 1 := by
  rw [make_waveform_square, if_pos (List.length_pos.mpr h0)]
  refine ⟨_, rfl, ?_⟩
  rw [squareStep_foldl_length]
  simp

theorem make_waveform_square_length_witness :
    ([1, 2, 3] : List ℚ) ≠ [] ∧ 1 ≤ 2 ∧
      ∃ r, make_waveform_square [1, 2, 3] 2 = some r ∧
        r.length = ([1, 2, 3] : List ℚ).length - 1 :=
  ⟨by decide, by decide, make_waveform_square_length [1, 2, 3] 2 (by decide) (by decide)⟩

/-- C1 counterexample: on the two-element profile `[1, 2]` with `N = 1` the result
has length `1`, not the input length `2`. -/
theorem make_waveform_square_length_cex :
    ¬ ((make_waveform_square [1, 2] 1).getD []).length = ([1, 2] : List ℚ).length := by
  decide

/-- C4 (amended): for a profile of length at least 2, `make_waveform_square` with
`N = 1` returns the input with its first element dropped, so output index `0`
holds `input[1]` (the stored first element `input[0]` is overwritten before the
first append). -/
theorem make_waveform_square_merge_one (wf : List ℚ) (h : 2 ≤ wf.length) :
    make_waveform_square wf 1 = some (wf.drop 1) ∧
      (wf.drop 1).getD 0 0 = wf.getD 1 0 := by
  constructor
  · rw [make_waveform_square, if_pos (by omega)]
    rw [squareStep_foldl_one, List.nil_append, map_getD_range'_one]
  · cases wf with
    | nil => simp at h
    | cons x t => simp

theorem make_waveform_square_merge_one_witness :
    2 ≤ ([5, 7, 9] : List ℚ).length ∧
      (make_waveform_square [5, 7, 9] 1 = some (([5, 7, 9] : List ℚ).drop 1) ∧
        (([5, 7, 9] : List ℚ).drop 1).getD 0 0 = ([5, 7, 9] : List ℚ).getD 1 0) :=
  ⟨by decide, make_waveform_square_merge_one [5, 7, 9] (by decide)⟩

/-- C4 counterexample: for the profile `[5, 7]` with `N = 1`, output index `0`
is `7 = input[1]`, not `input[0] = 5`. -/
theorem make_waveform_square_merge_one_cex :
    ¬ ((make_waveform_square [5, 7] 1).getD []).getD 0 0 = (5 : ℚ) := by
  decide

/-- C9: `make_waveform_square` returns `None` on the empty profile, for every
merge count (the `len(waveform) > 0` guard fails and `res_waveform` stays `None`). -/
theorem make_waveform_square_empty : ∀ n : ℕ, make_waveform_square [] n = none :=
  fun _ => rfl

/-! ### Rescaler (`_rescale_list`) -/

theorem set_mul_foldl_cons (c : ℚ) (is : List ℕ) :
    ∀ (v : ℚ) (xs : List ℚ),
      is.foldl (fun buf i => buf.set (i + 1) (buf.getD (i + 1) 0 * c)) (v :: xs)
        = v :: is.foldl (fun buf i => buf.set i (buf.getD i 0 * c)) xs := by
  induction is with
  | nil => intro v xs; rfl
  | cons i is ih =>
    intro v xs
    rw [List.foldl_cons, List.foldl_cons]
    have h1 : (v :: xs).set (i + 1) ((v :: xs).getD (i + 1) 0 * c)
        = v :: xs.set i (xs.getD i 0 * c) := rfl
    rw [h1]
    exact ih v _

theorem set_mul_foldl_eq_map (c : ℚ) :
    ∀ l : List ℚ,
      (List.range l.length).foldl (fun buf i => buf.set i (buf.getD i 0 * c)) l
        = l.map (fun x => x * c) := by
  intro l
  induction l with
  | nil => rfl
  | cons x t ih =>
    simp only [List.length_cons, List.range_succ_eq_map, List.foldl_cons,
      List.set_cons_zero, List.foldl_map]
    have h0 : (x :: t).getD 0 0 = x := rfl
    rw [h0]
    have : ∀ (buf : List ℚ) (i : ℕ),
        buf.set (Nat.succ i) (buf.getD (Nat.succ i) 0 * c)
          = buf.set (i + 1) (buf.getD (i + 1) 0 * c) := fun _ _ => rfl
    simp only [this, set_mul_foldl_cons, ih, List.map_cons]

theorem rescale_fold_eq_map (l : List ℚ) (a b : ℚ) :
    _rescale_list l a b = l.map (fun x => x * ((b - a) / listMax l)) :=
  set_mul_foldl_eq_map _ l

theorem foldl_max_mul (c : ℚ) (hc : 0 ≤ c) :
    ∀ (xs : List ℚ) (a : ℚ),
      (xs.map (fun x => x * c)).foldl max (a * c) = xs.foldl max a * c := by
  intro xs
  induction xs with
  | nil => intro a; rfl
  | cons x t ih =>
    intro a
    simp only [List.map_cons, List.foldl_cons]
    rw [← max_mul_of_nonneg a x hc, ih]

theorem listMax_map_mul (l : List ℚ) (c : ℚ) (hc : 0 ≤ c) :
    listMax (l.map (fun x => x * c)) = listMax l * c := by
  cases l with
  | nil => simp [listMax]
  | cons x t => exact foldl_max_mul c hc t x

/-- C3 (amended): `_rescale_list` multiplies every element by `(b - a) / max(input)`;
for a positive maximum and `a ≤ b` the maximum of the output is therefore `b - a`
(equal to `b` only when `a = 0`), not `b`. -/
theorem rescale_list_spec (l : List ℚ) (a b : ℚ) (hne : l ≠ [])
    (hmax : 0 < listMax l) (hab : a ≤ b) :
    (∀ i, i < l.length →
        (_rescale_list l a b).getD i 0 = l.getD i 0 * ((b - a) / listMax l))
    ∧ listMax (_rescale_list l a b) = b - a := by
  constructor
  · intro i hi
    rw [rescale_fold_eq_map]
    rw [getD_eq_get _ 0 i (by simpa using hi), List.getElem_map,
      getD_eq_get _ 0 i hi]
  · rw [rescale_fold_eq_map,
      listMax_map_mul l _ (div_nonneg (sub_nonneg.mpr hab) hmax.le),
      mul_comm, div_mul_cancel₀ _ (ne_of_gt hmax)]

theorem rescale_list_spec_witness :
    ([1, 2] : List ℚ) ≠ [] ∧ 0 < listMax [1, 2] ∧ (0 : ℚ) ≤ 10 ∧
      ((∀ i, i < ([1, 2] : List ℚ).length →
          (_rescale_list [1, 2] 0 10).getD i 0
            = ([1, 2] : List ℚ).getD i 0 * ((10 - 0) / listMax [1, 2]))
        ∧ listMax (_rescale_list [1, 2] 0 10) = 10 - 0) :=
  ⟨by decide, by decide, by decide,
    rescale_list_spec [1, 2] 0 10 (by decide) (by decide) (by decide)⟩

/-- C3 counterexample: for the sequence `[1]` with bounds `a = 1`, `b = 2`, the
scale factor is `(2-1)/1 = 1`, so the output maximum is `1`, not `b = 2`. -/
theorem rescale_list_max_cex : ¬ listMax (_rescale_list [1] 1 2) = 2 := by
  norm_num [_rescale_list, listMax, List.range_succ]

/-- C8 (amended): `_rescale_list` mutates the caller's buffer in place; after the
call the buffer holds the scaled values `input[i] * (b - a) / max(input)` — the
very list the function returns — not the original values. -/
theorem rescale_list_buffer_after :
    ∀ (l : List ℚ) (a b : ℚ),
      _rescale_list l a b = l.map (fun x => x * ((b - a) / listMax l)) :=
  fun l a b => rescale_fold_eq_map l a b

/-- C8 counterexample: after `_rescale_list([1, 2], 0, 10)` the buffer holds
`[5, 10]`, so the sequence passed in no longer holds its original values. -/
theorem rescale_list_no_mutation_cex :
    ¬ _rescale_list [1, 2] 0 10 = [1, 2] := by
  norm_num [_rescale_list, listMax, List.range_succ]

/-! ### Loudness Normalizer (`_process_loudness_list`) -/

theorem le_foldl_max : ∀ (xs : List ℚ) (a : ℚ), a ≤ xs.foldl max a := by
  intro xs
  induction xs with
  | nil => intro a; exact le_refl a
  | cons x t ih => intro a; exact le_trans (le_max_left a x) (ih (max a x))

theorem mem_le_foldl_max : ∀ (xs : List ℚ) (a x : ℚ), x ∈ xs → x ≤ xs.foldl max a := by
  intro xs
  induction xs with
  | nil => intro a x hx; simp at hx
  | cons y t ih =>
    intro a x hx
    rcases List.mem_cons.mp hx with h | h
    · subst h; exact le_trans (le_max_right a x) (le_foldl_max t (max a x))
    · exact ih (max a y) x h

theorem le_listMax (l : List ℚ) (x : ℚ) (h : x ∈ l) : x ≤ listMax l := by
  cases l with
  | nil => simp at h
  | cons y t =>
    rcases List.mem_cons.mp h with h | h
    · subst h; exact le_foldl_max t x
    · exact mem_le_foldl_max t y x h

theorem foldl_min_le : ∀ (xs : List ℚ) (a : ℚ), xs.foldl min a ≤ a := by
  intro xs
  induction xs with
  | nil => intro a; exact le_refl a
  | cons x t ih => intro a; exact le_trans (ih (min a x)) (min_le_left a x)

theorem foldl_min_le_mem : ∀ (xs : List ℚ) (a x : ℚ), x ∈ xs → xs.foldl min a ≤ x := by
  intro xs
  induction xs with
  | nil => intro a x hx; simp at hx
  | cons y t ih =>
    intro a x hx
    rcases List.mem_cons.mp hx with h | h
    · subst h; exact le_trans (foldl_min_le t (min a x)) (min_le_right a x)
    · exact ih (min a y) x h

theorem listMin_le (l : List ℚ) (x : ℚ) (h : x ∈ l) : listMin l ≤ x := by
  cases l with
  | nil => simp at h
  | cons y t =>
    rcases List.mem_cons.mp h with h | h
    · subst h; exact foldl_min_le t x
    · exact foldl_min_le_mem t y x h

theorem getD_mem (l : List ℚ) (i : ℕ) (h : i < l.length) : l.getD i 0 ∈ l := by
  rw [getD_eq_get l 0 i h]
  exact List.getElem_mem h

theorem foldl_max_add (c : ℚ) :
    ∀ (xs : List ℚ) (a : ℚ),
      (xs.map (fun x => x + c)).foldl max (a + c) = xs.foldl max a + c := by
  intro xs
  induction xs with
  | nil => intro a; rfl
  | cons x t ih =>
    intro a
    simp only [List.map_cons, List.foldl_cons]
    rw [max_add_add_right a x c, ih]

theorem listMax_map_add (l : List ℚ) (c : ℚ) (hne : l ≠ []) :
    listMax (l.map (fun x => x + c)) = listMax l + c := by
  cases l with
  | nil => exact absurd rfl hne
  | cons x t => exact foldl_max_add c t x

/-- C7: `_process_loudness_list` maps every element to
`(x - min)^2 / (scale_factor * max(shifted))` with `max(shifted) = max - min`
and `scale_factor = 0.5`; for a strictly increasing input the output is strictly
increasing and the largest input maps to the largest output. -/
theorem process_loudness_spec (l : List ℚ) (hne : l ≠ []) (hlt : listMin l < listMax l) :
    ((_process_loudness_list l).length = l.length)
    ∧ (∀ i, i < l.length →
        (_process_loudness_list l).getD i 0
          = (l.getD i 0 - listMin l) ^ 2 / (scale_factor * (listMax l - listMin l)))
    ∧ ((∀ j, j < l.length → ∀ i, i < j → l.getD i 0 < l.getD j 0) →
        (∀ j, j < l.length → ∀ i, i < j →
            (_process_loudness_list l).getD i 0 < (_process_loudness_list l).getD j 0)
        ∧ (∀ i, i < l.length →
            (_process_loudness_list l).getD i 0
              ≤ (_process_loudness_list l).getD (l.length - 1) 0)) := by
  have hmaxshift : listMax (l.map (fun x => x + listMin l * (-1)))
      = listMax l - listMin l := by
    rw [listMax_map_add l _ hne, mul_neg_one, ← sub_eq_add_neg]
  have hlen : (_process_loudness_list l).length = l.length := by
    simp [_process_loudness_list]
  have hform : ∀ i, i < l.length →
      (_process_loudness_list l).getD i 0
        = (l.getD i 0 - listMin l) ^ 2 / (scale_factor * (listMax l - listMin l)) := by
    intro i hi
    simp only [_process_loudness_list]
    rw [hmaxshift, getD_eq_get _ 0 i (by simpa using hi), List.getElem_map,
      List.getElem_map, getD_eq_get _ 0 i hi]
    ring
  refine ⟨hlen, hform, ?_⟩
  intro hmono
  have hden : 0 < scale_factor * (listMax l - listMin l) :=
    mul_pos (by norm_num [scale_factor]) (sub_pos.mpr hlt)
  have hout : ∀ j, j < l.length → ∀ i, i < j →
      (_process_loudness_list l).getD i 0 < (_process_loudness_list l).getD j 0 := by
    intro j hj i hij
    have hi : i < l.length := lt_trans hij hj
    rw [hform i hi, hform j hj]
    apply (div_lt_div_iff_of_pos_right hden).mpr
    have h0 : 0 ≤ l.getD i 0 - listMin l :=
      sub_nonneg.mpr (listMin_le l _ (getD_mem l i hi))
    exact pow_lt_pow_left₀ (sub_lt_sub_right (hmono j hj i hij) _) h0 (by norm_num)
  refine ⟨hout, ?_⟩
  intro i hi
  have hlpos : 0 < l.length := List.length_pos.mpr hne
  rcases Nat.lt_or_ge i (l.length - 1) with h | h
  · exact le_of_lt (hout (l.length - 1) (by omega) i h)
  · have : i = l.length - 1 := by omega
    subst this
    exact le_refl _

theorem process_loudness_spec_witness :
    ([-3, 0, 4] : List ℚ) ≠ [] ∧ listMin [-3, 0, 4] < listMax [-3, 0, 4] ∧
      (((_process_loudness_list [-3, 0, 4]).length = ([-3, 0, 4] : List ℚ).length)
        ∧ (∀ i, i < ([-3, 0, 4] : List ℚ).length →
            (_process_loudness_list [-3, 0, 4]).getD i 0
              = (([-3, 0, 4] : List ℚ).getD i 0 - listMin [-3, 0, 4]) ^ 2
                / (scale_factor * (listMax [-3, 0, 4] - listMin [-3, 0, 4])))
        ∧ ((∀ j, j < ([-3, 0, 4] : List ℚ).length → ∀ i, i < j →
              ([-3, 0, 4] : List ℚ).getD i 0 < ([-3, 0, 4] : List ℚ).getD j 0) →
            (∀ j, j < ([-3, 0, 4] : List ℚ).length → ∀ i, i < j →
                (_process_loudness_list [-3, 0, 4]).getD i 0
                  < (_process_loudness_list [-3, 0, 4]).getD j 0)
            ∧ (∀ i, i < ([-3, 0, 4] : List ℚ).length →
                (_process_loudness_list [-3, 0, 4]).getD i 0
                  ≤ (_process_loudness_list [-3, 0, 4]).getD
                      (([-3, 0, 4] : List ℚ).length - 1) 0))) :=
  ⟨by simp, by norm_num [listMin, listMax],
    process_loudness_spec [-3, 0, 4] (by simp) (by norm_num [listMin, listMax])⟩

/-! ### Smoother (`_movingaverage`) -/

theorem replicate_getD (n : ℕ) (c : ℚ) (j : ℕ) (h : j < n) :
    (List.replicate n c).getD j 0 = c := by
  rw [getD_eq_get _ 0 j (by simpa using h)]
  simp

/-- C5: with `'valid'` convolution, a window longer than the data does NOT fail:
numpy swaps the operands, so `_movingaverage([1, 2], 5)` silently returns the
length-4 list of partial sums `[3/5, 3/5, 3/5, 3/5]`; for `window ≤ length` the
result has length `L - W + 1` and each entry is the unweighted mean of the
corresponding window. -/
theorem movingaverage_spec :
    _movingaverage [1, 2] 5 = [3/5, 3/5, 3/5, 3/5]
    ∧ ∀ (values : List ℚ) (window : ℕ), 1 ≤ window → window ≤ values.length →
        (_movingaverage values window).length = values.length - window + 1
        ∧ ∀ k, k < values.length - window + 1 →
            (_movingaverage values window).getD k 0
              = (∑ t ∈ Finset.range window, values.getD (k + t) 0) / (window : ℚ) := by
  constructor
  · norm_num [_movingaverage, convolveValid, List.range_succ, Finset.sum_range_succ]
  · intro values window h1 h2
    have heq : _movingaverage values window
        = (List.range (values.length - window + 1)).map (fun k =>
            ∑ j ∈ Finset.range window,
              (List.replicate window ((1 : ℚ) / window)).getD j 0
                * values.getD (k + (window - 1) - j) 0) := by
      simp only [_movingaverage, convolveValid, List.length_replicate, if_pos h2]
    rw [heq]
    constructor
    · simp
    · intro k hk
      rw [getD_eq_get _ 0 k (by simpa using hk), List.getElem_map, List.getElem_range]
      have hterm : ∀ j ∈ Finset.range window,
          (List.replicate window ((1 : ℚ) / window)).getD j 0
              * values.getD (k + (window - 1) - j) 0
            = (1 / (window : ℚ)) * values.getD (k + (window - 1 - j)) 0 := by
        intro j hj
        have hjw : j < window := Finset.mem_range.mp hj
        rw [replicate_getD window _ j hjw, Nat.add_sub_assoc (by omega) k]
      rw [Finset.sum_congr rfl hterm,
        Finset.sum_range_reflect (fun t => (1 / (window : ℚ)) * values.getD (k + t) 0) window,
        ← Finset.mul_sum, one_div, inv_mul_eq_div]

theorem movingaverage_spec_witness :
    1 ≤ 2 ∧ 2 ≤ ([1, 2, 3, 4] : List ℚ).length ∧
      ((_movingaverage [1, 2, 3, 4] 2).length = ([1, 2, 3, 4] : List ℚ).length - 2 + 1
        ∧ ∀ k, k < ([1, 2, 3, 4] : List ℚ).length - 2 + 1 →
            (_movingaverage [1, 2, 3, 4] 2).getD k 0
              = (∑ t ∈ Finset.range 2, ([1, 2, 3, 4] : List ℚ).getD (k + t) 0)
                  / ((2 : ℕ) : ℚ)) :=
  ⟨by norm_num, by norm_num,
    movingaverage_spec.2 [1, 2, 3, 4] 2 (by norm_num) (by norm_num)⟩

/-! ### Downsampler (`local_audio_3d`, waveform mode) -/

theorem getLastD_of_ne_nil {α : Type} (l : List α) (d d' : α) (h : l ≠ []) :
    l.getLastD d = l.getLastD d' := by
  cases l with
  | nil => exact absurd rfl h
  | cons x t => rw [List.getLastD_cons, List.getLastD_cons]

theorem digits_getLastD :
    ∀ n : ℕ, n ≠ 0 → (Nat.digits 10 n).getLastD 0 = n / 10 ^ Nat.log 10 n := by
  intro n
  induction n using Nat.strong_induction_on with
  | _ n ih =>
    intro hn
    rcases Nat.lt_or_ge n 10 with h | h
    · rw [Nat.digits_def' (by norm_num) (Nat.pos_of_ne_zero hn)]
      rw [Nat.div_eq_of_lt h]
      have hlog : Nat.log 10 n = 0 := Nat.log_eq_zero_iff.mpr (Or.inl h)
      simp [Nat.mod_eq_of_lt h, hlog]
    · have hd : Nat.digits 10 n = n % 10 :: Nat.digits 10 (n / 10) :=
        Nat.digits_def' (by norm_num) (Nat.pos_of_ne_zero hn)
      have hqn : n / 10 ≠ 0 := by
        have : 1 ≤ n / 10 := Nat.one_le_div_iff (by norm_num) |>.mpr h
        omega
      have hne : Nat.digits 10 (n / 10) ≠ [] := Nat.digits_ne_nil_iff_ne_zero.mpr hqn
      rw [hd, List.getLastD_cons, getLastD_of_ne_nil _ _ 0 hne,
        ih (n / 10) (Nat.div_lt_self (Nat.pos_of_ne_zero hn) (by norm_num)) hqn,
        Nat.log_of_one_lt_of_le (by norm_num) h, pow_succ, Nat.div_div_eq_div_mul,
        Nat.mul_comm]

theorem le_of_mem_range' {s n m : ℕ} (h : m ∈ List.range' s n) : s ≤ m := by
  obtain ⟨i, hi, rfl⟩ := List.mem_range'.mp h
  omega

theorem filter_map_range'_spec (d : ℕ) :
    ∀ (xs : List ℚ) (s : ℕ),
      ((List.range' s xs.length).filter
          (fun i => decide (0 < xs.getD (i - s) 0) && decide (i % d = 0))).map
        (fun i => xs.getD (i - s) 0) = halfWaveformSpec d s xs := by
  intro xs
  induction xs with
  | nil => intro s; rfl
  | cons x t ih =>
    intro s
    rw [List.length_cons, List.range'_succ, List.filter_cons]
    have hgd0 : (x :: t).getD (s - s) 0 = x := by
      rw [Nat.sub_self]; rfl
    have hfil : (List.range' (s + 1) t.length).filter
        (fun i => decide (0 < (x :: t).getD (i - s) 0) && decide (i % d = 0))
        = (List.range' (s + 1) t.length).filter
            (fun i => decide (0 < t.getD (i - (s + 1)) 0) && decide (i % d = 0)) := by
      apply List.filter_congr
      intro i hi
      have his : s + 1 ≤ i := le_of_mem_range' hi
      have hsh : (x :: t).getD (i - s) 0 = t.getD (i - (s + 1)) 0 := by
        have he : i - s = (i - (s + 1)) + 1 := by omega
        rw [he]; rfl
      rw [hsh]
    have hmap : ((List.range' (s + 1) t.length).filter
        (fun i => decide (0 < t.getD (i - (s + 1)) 0) && decide (i % d = 0))).map
          (fun i => (x :: t).getD (i - s) 0)
        = ((List.range' (s + 1) t.length).filter
            (fun i => decide (0 < t.getD (i - (s + 1)) 0) && decide (i % d = 0))).map
          (fun i => t.getD (i - (s + 1)) 0) := by
      apply List.map_congr_left
      intro i hi
      have his : s + 1 ≤ i := le_of_mem_range' (List.mem_filter.mp hi).1
      have he : i - s = (i - (s + 1)) + 1 := by omega
      rw [he]; rfl
    by_cases hc : s % d = 0 ∧ 0 < x
    · rw [if_pos (by simp [hgd0, hc.1, hc.2])]
      rw [List.map_cons, hgd0, hfil, hmap, ih (s + 1)]
      simp [halfWaveformSpec, hc]
    · rw [if_neg (by
        simp only [hgd0, Bool.and_eq_true, decide_eq_true_eq]
        intro hpos
        exact hc ⟨hpos.2, hpos.1⟩)]
      rw [hfil, hmap, ih (s + 1)]
      simp [halfWaveformSpec, hc]

/-- C6: the downsampling step of `local_audio_3d` (waveform mode): the kept
elements are exactly those whose original index is a multiple of the stride and
whose value is strictly positive (in order), and the stride is `1` for lengths
up to `1000` and `10 ^ (m - 4) * d` otherwise, where `m = Nat.log 10 len + 1`
is the decimal digit-count and `d = len / 10 ^ Nat.log 10 len` the leading
decimal digit of the length. -/
theorem downsample_spec :
    ∀ wf : List ℚ,
      half_waveform wf = halfWaveformSpec (downsample_factor wf.length) 0 wf
      ∧ downsample_factor wf.length
          = if 1000 < wf.length then
              10 ^ (Nat.log 10 wf.length + 1 - 4)
                * (wf.length / 10 ^ Nat.log 10 wf.length)
            else 1 := by
  intro wf
  constructor
  · have hb := filter_map_range'_spec (downsample_factor wf.length) wf 0
    simpa [half_waveform, List.range_eq_range', Nat.sub_zero] using hb
  · by_cases h : 1000 < wf.length
    · have hu : wf.length ≠ 0 := by omega
      simp only [downsample_factor, if_pos h]
      rw [Nat.digits_len 10 wf.length (by norm_num) hu, digits_getLastD wf.length hu]
      have harith : Nat.log 10 wf.length + 1 - 1 - 3 = Nat.log 10 wf.length + 1 - 4 := by
        omega
      rw [harith]
    · simp only [downsample_factor, if_neg h]

/-! ### Heightmap Extruder (`make_waveform_3d`) -/

theorem getD_of_length_le {α : Type} (l : List α) (d : α) (n : ℕ) (h : l.length ≤ n) :
    l.getD n d = d := by
  simp [List.getD_eq_getElem?_getD, List.getElem?_eq_none h]

theorem getD_set_self {α : Type} (l : List α) (i : ℕ) (a d : α) (h : i < l.length) :
    (l.set i a).getD i d = a := by
  rw [getD_eq_get _ _ _ (by simpa using h)]
  simp

theorem getD_set_ne {α : Type} (l : List α) (i j : ℕ) (a d : α) (h : i ≠ j) :
    (l.set i a).getD j d = l.getD j d := by
  simp [List.getD_eq_getElem?_getD, List.getElem?_set_ne h]

theorem length_matSet (M : List (List ℚ)) (r c : ℕ) (v : ℚ) :
    (matSet M r c v).length = M.length := by
  simp [matSet]

theorem rowlen_matSet (M : List (List ℚ)) (r c : ℕ) (v : ℚ) (r' : ℕ) :
    ((matSet M r c v).getD r' []).length = (M.getD r' []).length := by
  by_cases hr : r < M.length
  · by_cases hrr : r = r'
    · subst hrr
      rw [matSet, getD_set_self _ _ _ _ hr]
      simp
    · rw [matSet, getD_set_ne _ _ _ _ _ hrr]
  · rw [matSet, List.set_eq_of_length_le (by omega)]

theorem matGet_matSet_self (M : List (List ℚ)) (r c : ℕ) (v : ℚ)
    (h1 : r < M.length) (h2 : c < (M.getD r []).length) :
    matGet (matSet M r c v) r c = v := by
  rw [matGet, matSet, getD_set_self _ _ _ _ h1, getD_set_self _ _ _ _ h2]

theorem matGet_matSet_ne (M : List (List ℚ)) (r c : ℕ) (v : ℚ) (r' c' : ℕ)
    (h : r' ≠ r ∨ c' ≠ c) :
    matGet (matSet M r c v) r' c' = matGet M r' c' := by
  by_cases hrr : r = r'
  · subst hrr
    have hcc : c' ≠ c := by tauto
    by_cases hr : r < M.length
    · rw [matGet, matSet, getD_set_self _ _ _ _ hr, getD_set_ne _ _ _ _ _ (Ne.symm hcc),
        matGet]
    · rw [matGet, matSet, List.set_eq_of_length_le (by omega), matGet]
  · rw [matGet, matSet, getD_set_ne _ _ _ _ _ hrr, matGet]

theorem matGet_replicate_zero (R C r c : ℕ) :
    matGet (List.replicate R (List.replicate C (0 : ℚ))) r c = 0 := by
  rw [matGet]
  by_cases hr : r < R
  · have h1 : (List.replicate R (List.replicate C (0 : ℚ))).getD r [] = List.replicate C 0 := by
      rw [getD_eq_get _ _ _ (by simpa using hr)]
      simp
    rw [h1]
    by_cases hc : c < C
    · rw [getD_eq_get _ _ _ (by simpa using hc)]
      simp
    · exact getD_of_length_le _ _ _ (by simpa using not_lt.mp hc)
  · have h1 : (List.replicate R (List.replicate C (0 : ℚ))).getD r [] = [] :=
      getD_of_length_le _ _ _ (by simpa using not_lt.mp hr)
    rw [h1]
    rfl

theorem fillStep_eq (wf : List ℚ) (mlv : ℚ) (m i : ℕ) (M : List (List ℚ)) (j : ℕ) :
    fillStep wf mlv m i M j
      = matSet (matSet M (m - i) j (if (i : ℚ) < wf.getD j 0 + mlv then 1 else 0))
          (m + i) j (if (i : ℚ) < wf.getD j 0 + mlv then 1 else 0) := by
  simp only [fillStep]
  by_cases h : (i : ℚ) < wf.getD j 0 + mlv
  · simp only [if_pos h]
  · simp only [if_neg h]

theorem inner_fold_matGet (wf : List ℚ) (mlv : ℚ) (m i : ℕ) (him : i < m) :
    ∀ (t : ℕ) (M : List (List ℚ)),
      t ≤ wf.length →
      M.length = 2 * m →
      (∀ r', r' < 2 * m → (M.getD r' []).length = wf.length) →
      (((List.range t).foldl (fillStep wf mlv m i) M).length = 2 * m)
      ∧ (∀ r', r' < 2 * m →
          (((List.range t).foldl (fillStep wf mlv m i) M).getD r' []).length = wf.length)
      ∧ (∀ r c, matGet ((List.range t).foldl (fillStep wf mlv m i) M) r c
          = if (r = m - i ∨ r = m + i) ∧ c < t
            then (if (i : ℚ) < wf.getD c 0 + mlv then 1 else 0)
            else matGet M r c) := by
  intro t
  induction t with
  | zero =>
    intro M ht hlen hrow
    refine ⟨by simpa using hlen, by simpa using hrow, ?_⟩
    intro r c
    simp
  | succ t ih =>
    intro M ht hlen hrow
    obtain ⟨ihlen, ihrow, ihget⟩ := ih M (by omega) hlen hrow
    rw [List.range_succ, List.foldl_append, List.foldl_cons, List.foldl_nil]
    rw [fillStep_eq]
    have hm1 : m - i < 2 * m := by omega
    have hm2 : m + i < 2 * m := by omega
    have htw : t < wf.length := by omega
    refine ⟨by rw [length_matSet, length_matSet, ihlen], ?_, ?_⟩
    · intro r' hr'
      rw [rowlen_matSet, rowlen_matSet]
      exact ihrow r' hr'
    · intro r c
      by_cases hc : c = t
      · subst hc
        by_cases hr2 : r = m + i
        · subst hr2
          rw [matGet_matSet_self _ _ _ _
            (by rw [length_matSet, ihlen]; exact hm2)
            (by rw [rowlen_matSet, ihrow _ hm2]; exact htw)]
          have hcnd : (m + i = m - i ∨ m + i = m + i) ∧ c < c + 1 := ⟨Or.inr rfl, by omega⟩
          rw [if_pos hcnd]
        · by_cases hr1 : r = m - i
          · subst hr1
            rw [matGet_matSet_ne _ _ _ _ _ _ (Or.inl hr2),
              matGet_matSet_self _ _ _ _ (by rw [ihlen]; exact hm1)
                (by rw [ihrow _ hm1]; exact htw)]
            have hcnd : (m - i = m - i ∨ m - i = m + i) ∧ c < c + 1 := ⟨Or.inl rfl, by omega⟩
            rw [if_pos hcnd]
          · rw [matGet_matSet_ne _ _ _ _ _ _ (Or.inl hr2),
              matGet_matSet_ne _ _ _ _ _ _ (Or.inl hr1), ihget]
            have hnr : ¬(r = m - i ∨ r = m + i) := by
              intro hx
              rcases hx with h | h
              · exact hr1 h
              · exact hr2 h
            have hn1 : ¬((r = m - i ∨ r = m + i) ∧ c < c) := fun hx => hnr hx.1
            have hn2 : ¬((r = m - i ∨ r = m + i) ∧ c < c + 1) := fun hx => hnr hx.1
            rw [if_neg hn1, if_neg hn2]
      · rw [matGet_matSet_ne _ _ _ _ _ _ (Or.inr hc),
          matGet_matSet_ne _ _ _ _ _ _ (Or.inr hc), ihget]
        by_cases hcond : (r = m - i ∨ r = m + i) ∧ c < t
        · have hcnd2 : (r = m - i ∨ r = m + i) ∧ c < t + 1 := ⟨hcond.1, by omega⟩
          rw [if_pos hcond, if_pos hcnd2]
        · have hncnd2 : ¬((r = m - i ∨ r = m + i) ∧ c < t + 1) := by
            intro hx
            exact hcond ⟨hx.1, by omega⟩
          rw [if_neg hcond, if_neg hncnd2]

theorem rowIdx_sub (m k : ℕ) (hk : k ≤ m) : rowIdx m (m - k) = k := by
  rw [rowIdx, if_pos (by omega)]
  omega

theorem rowIdx_add (m k : ℕ) : rowIdx m (m + k) = k := by
  rw [rowIdx]
  split <;> omega

theorem outer_fold_matGet (wf : List ℚ) (mlv : ℚ) (m : ℕ) :
    ∀ (k : ℕ), k ≤ m →
      (((List.range k).foldl
          (fun M i => (List.range wf.length).foldl (fillStep wf mlv m i) M)
          (List.replicate (2 * m) (List.replicate wf.length 0))).length = 2 * m)
      ∧ (∀ r', r' < 2 * m →
          (((List.range k).foldl
              (fun M i => (List.range wf.length).foldl (fillStep wf mlv m i) M)
              (List.replicate (2 * m) (List.replicate wf.length 0))).getD r' []).length
            = wf.length)
      ∧ (∀ r c, matGet ((List.range k).foldl
            (fun M i => (List.range wf.length).foldl (fillStep wf mlv m i) M)
            (List.replicate (2 * m) (List.replicate wf.length 0))) r c
          = if (∃ i, i < k ∧ (r = m - i ∨ r = m + i)) ∧ c < wf.length
            then (if (rowIdx m r : ℚ) < wf.getD c 0 + mlv then 1 else 0)
            else 0) := by
  intro k
  induction k with
  | zero =>
    intro hk
    refine ⟨by simp, ?_, ?_⟩
    · intro r' hr'
      simp only [List.range_zero, List.foldl_nil]
      rw [getD_eq_get _ _ _ (by simpa using hr')]
      simp
    · intro r c
      simp only [List.range_zero, List.foldl_nil]
      rw [matGet_replicate_zero]
      have hneg : ¬((∃ i, i < 0 ∧ (r = m - i ∨ r = m + i)) ∧ c < wf.length) := by
        intro hx
        obtain ⟨⟨i, hi, _⟩, _⟩ := hx
        omega
      rw [if_neg hneg]
  | succ k ih =>
    intro hk
    obtain ⟨ihlen, ihrow, ihget⟩ := ih (by omega)
    rw [List.range_succ, List.foldl_append, List.foldl_cons, List.foldl_nil]
    obtain ⟨flen, frow, fget⟩ :=
      inner_fold_matGet wf mlv m k (by omega) wf.length _ (le_refl _) ihlen ihrow
    refine ⟨flen, frow, ?_⟩
    intro r c
    rw [fget r c]
    by_cases hc : c < wf.length
    · by_cases hr : r = m - k ∨ r = m + k
      · have hcnd1 : (r = m - k ∨ r = m + k) ∧ c < wf.length := ⟨hr, hc⟩
        rw [if_pos hcnd1]
        have hidx : rowIdx m r = k := by
          rcases hr with h | h
          · rw [h, rowIdx_sub m k (by omega)]
          · rw [h, rowIdx_add]
        have hcnd2 : (∃ i, i < k + 1 ∧ (r = m - i ∨ r = m + i)) ∧ c < wf.length :=
          ⟨⟨k, by omega, hr⟩, hc⟩
        rw [if_pos hcnd2, hidx]
      · have hneg1 : ¬((r = m - k ∨ r = m + k) ∧ c < wf.length) := fun hx => hr hx.1
        rw [if_neg hneg1, ihget r c]
        by_cases hex : ∃ i, i < k ∧ (r = m - i ∨ r = m + i)
        · have hcnd3 : (∃ i, i < k ∧ (r = m - i ∨ r = m + i)) ∧ c < wf.length := ⟨hex, hc⟩
          have hcnd4 : (∃ i, i < k + 1 ∧ (r = m - i ∨ r = m + i)) ∧ c < wf.length := by
            obtain ⟨i, hi, hri⟩ := hex
            exact ⟨⟨i, by omega, hri⟩, hc⟩
          rw [if_pos hcnd3, if_pos hcnd4]
        · have hneg3 : ¬((∃ i, i < k ∧ (r = m - i ∨ r = m + i)) ∧ c < wf.length) :=
            fun hx => hex hx.1
          have hneg4 : ¬((∃ i, i < k + 1 ∧ (r = m - i ∨ r = m + i)) ∧ c < wf.length) := by
            intro hx
            obtain ⟨⟨i, hi, hri⟩, _⟩ := hx
            rcases Nat.lt_or_ge i k with hik | hik
            · exact hex ⟨i, hik, hri⟩
            · have hik2 : i = k := by omega
              subst hik2
              exact hr hri
          rw [if_neg hneg3, if_neg hneg4]
    · have hn1 : ¬((r = m - k ∨ r = m + k) ∧ c < wf.length) := fun hx => hc hx.2
      have hn2 : ¬((∃ i, i < k ∧ (r = m - i ∨ r = m + i)) ∧ c < wf.length) :=
        fun hx => hc hx.2
      have hn3 : ¬((∃ i, i < k + 1 ∧ (r = m - i ∨ r = m + i)) ∧ c < wf.length) :=
        fun hx => hc hx.2
      rw [if_neg hn1, ihget r c, if_neg hn2, if_neg hn3]

theorem matGet_map_mul (M : List (List ℚ)) (h : ℚ) (r c : ℕ) :
    matGet (M.map (fun row => row.map (fun x => x * h))) r c = matGet M r c * h := by
  rw [matGet, matGet]
  by_cases hr : r < M.length
  · have h1 : (M.map (fun row => row.map (fun x => x * h))).getD r [] = M[r].map (fun x => x * h) := by
      rw [getD_eq_get _ _ _ (by simpa using hr)]
      simp
    have h2 : M.getD r [] = M[r] := getD_eq_get _ _ _ hr
    rw [h1, h2]
    by_cases hc : c < M[r].length
    · rw [getD_eq_get _ _ _ (by simpa using hc), List.getElem_map, getD_eq_get _ _ _ hc]
    · rw [getD_of_length_le _ _ _ (by simpa using not_lt.mp hc),
        getD_of_length_le _ _ _ (not_lt.mp hc), zero_mul]
  · have h1 : (M.map (fun row => row.map (fun x => x * h))).getD r [] = [] :=
      getD_of_length_le _ _ _ (by simpa using not_lt.mp hr)
    have h2 : M.getD r [] = [] := getD_of_length_le _ _ _ (not_lt.mp hr)
    rw [h1, h2]
    show (0 : ℚ) = 0 * h
    rw [zero_mul]

theorem make_waveform_3d_matGet (wf : List ℚ) (height : ℚ) (r c : ℕ) :
    matGet (make_waveform_3d wf height) r c
      = if (∃ i, i < (Int.ceil (listMax wf)).toNat
              ∧ (r = (Int.ceil (listMax wf)).toNat - i
                  ∨ r = (Int.ceil (listMax wf)).toNat + i))
          ∧ c < wf.length
        then (if (rowIdx (Int.ceil (listMax wf)).toNat r : ℚ)
                  < wf.getD c 0 + listMax wf / 10
              then height else 0)
        else 0 := by
  simp only [make_waveform_3d]
  rw [matGet_map_mul,
    (outer_fold_matGet wf (listMax wf / 10) (Int.ceil (listMax wf)).toNat
      (Int.ceil (listMax wf)).toNat (le_refl _)).2.2 r c]
  by_cases h1 : (∃ i, i < (Int.ceil (listMax wf)).toNat
      ∧ (r = (Int.ceil (listMax wf)).toNat - i ∨ r = (Int.ceil (listMax wf)).toNat + i))
      ∧ c < wf.length
  · rw [if_pos h1, if_pos h1, ite_mul, one_mul, zero_mul]
  · rw [if_neg h1, if_neg h1, zero_mul]

theorem make_waveform_3d_shape (wf : List ℚ) (height : ℚ) :
    (make_waveform_3d wf height).length = 2 * (Int.ceil (listMax wf)).toNat
    ∧ ∀ row ∈ make_waveform_3d wf height, row.length = wf.length := by
  obtain ⟨hlen, hrow, _⟩ :=
    outer_fold_matGet wf (listMax wf / 10) (Int.ceil (listMax wf)).toNat
      (Int.ceil (listMax wf)).toNat (le_refl _)
  constructor
  · simp only [make_waveform_3d, List.length_map]
    exact hlen
  · intro row hmem
    simp only [make_waveform_3d, List.mem_map] at hmem
    obtain ⟨row0, h0, hrw⟩ := hmem
    obtain ⟨ri, hri, hrieq⟩ := List.mem_iff_getElem.mp h0
    have hri2 : ri < 2 * (Int.ceil (listMax wf)).toNat := by
      rw [← hlen]; exact hri
    have : row0.length = wf.length := by
      rw [← hrieq]
      have := hrow ri hri2
      rw [getD_eq_get _ _ _ (by rw [hlen]; exact hri2)] at this
      exact this
    rw [← hrw, List.length_map, this]

theorem make_waveform_3d_rowlen (wf : List ℚ) (height : ℚ) (r : ℕ)
    (hr : r < 2 * (Int.ceil (listMax wf)).toNat) :
    ((make_waveform_3d wf height).getD r []).length = wf.length := by
  have hsh := make_waveform_3d_shape wf height
  have hrl : r < (make_waveform_3d wf height).length := by
    rw [hsh.1]; exact hr
  rw [getD_eq_get _ _ _ hrl]
  exact hsh.2 _ (List.getElem_mem hrl)

/-- C2: for a non-negative profile with positive maximum and any Z-height, the
matrix returned by `make_waveform_3d` has shape `(2m, N)` with
`m = ceil(max(profile))`; it is symmetric about the center row
(`matrix[m-i] = matrix[m+i]` for `i < m`); every entry is `0` or `height`; and
the entries of rows `m-i` and `m+i` at column `j` equal `height` exactly when
`i < profile[j] + max(profile)/10`, else `0`. -/
theorem make_waveform_3d_spec (wf : List ℚ) (height : ℚ) (m : ℕ)
    (hm : m = (Int.ceil (listMax wf)).toNat)
    (hpos : ∀ x ∈ wf, 0 ≤ x) (hmax : 0 < listMax wf) :
    ((m : ℤ) = Int.ceil (listMax wf))
    ∧ (make_waveform_3d wf height).length = 2 * m
    ∧ (∀ row ∈ make_waveform_3d wf height, row.length = wf.length)
    ∧ (∀ i, i < m →
        (make_waveform_3d wf height).getD (m - i) []
          = (make_waveform_3d wf height).getD (m + i) [])
    ∧ (∀ r c, matGet (make_waveform_3d wf height) r c = 0
        ∨ matGet (make_waveform_3d wf height) r c = height)
    ∧ (∀ i, i < m → ∀ j, j < wf.length →
        matGet (make_waveform_3d wf height) (m - i) j
            = (if (i : ℚ) < wf.getD j 0 + listMax wf / 10 then height else 0)
        ∧ matGet (make_waveform_3d wf height) (m + i) j
            = (if (i : ℚ) < wf.getD j 0 + listMax wf / 10 then height else 0)) := by
  subst hm
  set m := (Int.ceil (listMax wf)).toNat with hmdef
  have hcz : (m : ℤ) = Int.ceil (listMax wf) :=
    Int.toNat_of_nonneg (le_of_lt (Int.ceil_pos.mpr hmax))
  have hm1 : 1 ≤ m := by
    have : (0 : ℤ) < (m : ℤ) := by rw [hcz]; exact Int.ceil_pos.mpr hmax
    exact_mod_cast this
  have hrows : ∀ i, i < m → ∀ c,
      matGet (make_waveform_3d wf height) (m - i) c
        = matGet (make_waveform_3d wf height) (m + i) c := by
    intro i him c
    rw [make_waveform_3d_matGet, make_waveform_3d_matGet]
    by_cases hc : c < wf.length
    · have h1 : (∃ i', i' < m ∧ (m - i = m - i' ∨ m - i = m + i')) ∧ c < wf.length :=
        ⟨⟨i, him, Or.inl rfl⟩, hc⟩
      have h2 : (∃ i', i' < m ∧ (m + i = m - i' ∨ m + i = m + i')) ∧ c < wf.length :=
        ⟨⟨i, him, Or.inr rfl⟩, hc⟩
      rw [if_pos h1, if_pos h2, rowIdx_sub m i (by omega), rowIdx_add m i]
    · have h1 : ¬((∃ i', i' < m ∧ (m - i = m - i' ∨ m - i = m + i')) ∧ c < wf.length) :=
        fun hx => hc hx.2
      have h2 : ¬((∃ i', i' < m ∧ (m + i = m - i' ∨ m + i = m + i')) ∧ c < wf.length) :=
        fun hx => hc hx.2
      rw [if_neg h1, if_neg h2]
  refine ⟨hcz, (make_waveform_3d_shape wf height).1, (make_waveform_3d_shape wf height).2,
    ?_, ?_, ?_⟩
  · intro i him
    apply List.ext_getElem
    · rw [make_waveform_3d_rowlen wf height _ (by omega),
        make_waveform_3d_rowlen wf height _ (by omega)]
    · intro c hc1 hc2
      rw [← getD_eq_get _ 0 c hc1, ← getD_eq_get _ 0 c hc2]
      exact hrows i him c
  · intro r c
    rw [make_waveform_3d_matGet]
    by_cases h1 : (∃ i, i < m ∧ (r = m - i ∨ r = m + i)) ∧ c < wf.length
    · rw [if_pos h1]
      by_cases h2 : (rowIdx m r : ℚ) < wf.getD c 0 + listMax wf / 10
      · rw [if_pos h2]; exact Or.inr rfl
      · rw [if_neg h2]; exact Or.inl rfl
    · rw [if_neg h1]; exact Or.inl rfl
  · intro i him j hj
    constructor
    · rw [make_waveform_3d_matGet]
      have h1 : (∃ i', i' < m ∧ (m - i = m - i' ∨ m - i = m + i')) ∧ j < wf.length :=
        ⟨⟨i, him, Or.inl rfl⟩, hj⟩
      rw [if_pos h1, rowIdx_sub m i (by omega)]
    · rw [make_waveform_3d_matGet]
      have h2 : (∃ i', i' < m ∧ (m + i = m - i' ∨ m + i = m + i')) ∧ j < wf.length :=
        ⟨⟨i, him, Or.inr rfl⟩, hj⟩
      rw [if_pos h2, rowIdx_add m i]

/-- C10: for a profile with positive maximum, the double loop of
`make_waveform_3d` only writes rows `1 .. 2m-1`, so row `0` of the returned
matrix is entirely zero; and when the profile is furthermore non-negative, the
center row `m` is entirely equal to the Z-height scale. -/
theorem make_waveform_3d_border_rows (wf : List ℚ) (height : ℚ) (m : ℕ)
    (hm : m = (Int.ceil (listMax wf)).toNat) (hmax : 0 < listMax wf) :
    (make_waveform_3d wf height).getD 0 [] = List.replicate wf.length 0
    ∧ ((∀ x ∈ wf, 0 ≤ x) →
        (make_waveform_3d wf height).getD m [] = List.replicate wf.length height) := by
  subst hm
  set m := (Int.ceil (listMax wf)).toNat with hmdef
  have hm1 : 1 ≤ m := by
    have h0 : (0 : ℤ) < (m : ℤ) := by
      rw [Int.toNat_of_nonneg (le_of_lt (Int.ceil_pos.mpr hmax))]
      exact Int.ceil_pos.mpr hmax
    exact_mod_cast h0
  constructor
  · apply List.ext_getElem
    · rw [make_waveform_3d_rowlen wf height _ (by omega), List.length_replicate]
    · intro c hc1 hc2
      rw [← getD_eq_get _ 0 c hc1, List.getElem_replicate]
      show matGet (make_waveform_3d wf height) 0 c = 0
      rw [make_waveform_3d_matGet]
      have hneg : ¬((∃ i, i < m ∧ (0 = m - i ∨ 0 = m + i)) ∧ c < wf.length) := by
        intro hx
        obtain ⟨⟨i, hi, hri⟩, _⟩ := hx
        rcases hri with h | h <;> omega
      rw [if_neg hneg]
  · intro hpos
    apply List.ext_getElem
    · rw [make_waveform_3d_rowlen wf height _ (by omega), List.length_replicate]
    · intro c hc1 hc2
      have hcw : c < wf.length := by
        have := make_waveform_3d_rowlen wf height m (by omega)
        omega
      rw [← getD_eq_get _ 0 c hc1, List.getElem_replicate]
      show matGet (make_waveform_3d wf height) m c = height
      rw [make_waveform_3d_matGet]
      have hp : (∃ i, i < m ∧ (m = m - i ∨ m = m + i)) ∧ c < wf.length :=
        ⟨⟨0, by omega, Or.inl (by omega)⟩, hcw⟩
      rw [if_pos hp]
      have hidx : rowIdx m m = 0 := by
        rw [rowIdx, if_pos (le_refl m)]
        omega
      rw [hidx]
      have hcond : ((0 : ℕ) : ℚ) < wf.getD c 0 + listMax wf / 10 := by
        have h1 : 0 ≤ wf.getD c 0 := hpos _ (getD_mem wf c hcw)
        have h2 : 0 < listMax wf / 10 := div_pos hmax (by norm_num)
        push_cast
        linarith
      rw [if_pos hcond]

theorem make_waveform_3d_spec_witness :
    (2 : ℕ) = (Int.ceil (listMax [2, 1])).toNat ∧ (∀ x ∈ ([2, 1] : List ℚ), 0 ≤ x)
    ∧ 0 < listMax [2, 1]
    ∧ (((2 : ℕ) : ℤ) = Int.ceil (listMax [2, 1])
        ∧ (make_waveform_3d [2, 1] 3).length = 2 * 2
        ∧ (∀ row ∈ make_waveform_3d [2, 1] 3, row.length = ([2, 1] : List ℚ).length)
        ∧ (∀ i, i < 2 →
            (make_waveform_3d [2, 1] 3).getD (2 - i) []
              = (make_waveform_3d [2, 1] 3).getD (2 + i) [])
        ∧ (∀ r c, matGet (make_waveform_3d [2, 1] 3) r c = 0
            ∨ matGet (make_waveform_3d [2, 1] 3) r c = 3)
        ∧ (∀ i, i < 2 → ∀ j, j < ([2, 1] : List ℚ).length →
            matGet (make_waveform_3d [2, 1] 3) (2 - i) j
                = (if (i : ℚ) < ([2, 1] : List ℚ).getD j 0 + listMax [2, 1] / 10
                   then 3 else 0)
            ∧ matGet (make_waveform_3d [2, 1] 3) (2 + i) j
                = (if (i : ℚ) < ([2, 1] : List ℚ).getD j 0 + listMax [2, 1] / 10
                   then 3 else 0))) :=
  ⟨by norm_num [listMax]; rfl, by norm_num, by norm_num [listMax],
    make_waveform_3d_spec [2, 1] 3 2 (by norm_num [listMax]; rfl) (by norm_num)
      (by norm_num [listMax])⟩

theorem make_waveform_3d_border_rows_witness :
    (2 : ℕ) = (Int.ceil (listMax [2, 1])).toNat ∧ 0 < listMax [2, 1]
    ∧ ((make_waveform_3d [2, 1] 3).getD 0 [] = List.replicate ([2, 1] : List ℚ).length 0
        ∧ ((∀ x ∈ ([2, 1] : List ℚ), 0 ≤ x) →
            (make_waveform_3d [2, 1] 3).getD 2 []
              = List.replicate ([2, 1] : List ℚ).length 3)) :=
  ⟨by norm_num [listMax]; rfl, by norm_num [listMax],
    make_waveform_3d_border_rows [2, 1] 3 2 (by norm_num [listMax]; rfl)
      (by norm_num [listMax])⟩
